import Mathlib

/-!
Shallow embedding of the build-graph synthesizer in `buck_file_generator.py`.

Pure text-processing functions of the source are translated directly
(`is_interface_file`, `get_interface_files`, `get_deps_for_files`,
`find_missing_deps_from_output`, `modify_buck_rule`, `format_deps_for_buck_file`,
`find_smallest_dep`, `add_missing_deps_pass`).  The filesystem is an explicit
association list from path to content, and the external build tool is an
explicit oracle parameter.  Python sets become `Finset String`; Python regular
expressions used by the source are small enough to be implemented exactly as
recognizer functions.
-/

/-- The ASCII apostrophe character (code point 39). -/
def qc : Char := Char.ofNat 39

/-- Python whitespace as matched by `\s`, `str.strip` and `str.rstrip`
(ASCII subset; the inputs considered contain no Unicode space characters). -/
def isPySpace (c : Char) : Bool :=
  c = ' ' || c = '\t' || c = '\n' || c = '\r' || c = Char.ofNat 11 || c = Char.ofNat 12

/-- `str.rstrip()` on a character list. -/
def pyRstripChars (cs : List Char) : List Char :=
  (cs.reverse.dropWhile isPySpace).reverse

/-- `str.rstrip()`. -/
def pyRstrip (s : String) : String :=
  String.mk (pyRstripChars s.data)

/-- `str.strip()`. -/
def pyStrip (s : String) : String :=
  String.mk ((pyRstripChars s.data).dropWhile isPySpace)

/-- Helper for `file.readlines()`: split after every newline, keeping the
newline; a final fragment without a newline is kept; an empty file has no
lines. -/
def pyReadlinesAux : List Char → List Char → List (List Char)
  | acc, [] => if acc.isEmpty then [] else [acc.reverse]
  | acc, c :: rest =>
    if c = '\n' then (acc.reverse ++ ['\n']) :: pyReadlinesAux [] rest
    else pyReadlinesAux (c :: acc) rest

/-- `file.readlines()` of a file with the given content. -/
def pyReadlines (s : String) : List String :=
  (pyReadlinesAux [] s.data).map fun cs => String.mk cs

/-- Helper for `str.splitlines()` (newline separators only, which is all the
diagnostics considered contain): terminators are dropped, no trailing empty
line. -/
def pySplitlinesAux : List Char → List Char → List (List Char)
  | acc, [] => if acc.isEmpty then [] else [acc.reverse]
  | acc, c :: rest =>
    if c = '\n' then acc.reverse :: pySplitlinesAux [] rest
    else pySplitlinesAux (c :: acc) rest

/-- `str.splitlines()`. -/
def pySplitlines (s : String) : List String :=
  (pySplitlinesAux [] s.data).map fun cs => String.mk cs

/-- Strip a literal off the front of a character list, or fail. -/
def stripLit : List Char → List Char → Option (List Char)
  | [], cs => some cs
  | _ :: _, [] => none
  | p :: ps, c :: cs => if c = p then stripLit ps cs else none

/-- Python `str.startswith`. -/
def strStarts (s p : String) : Bool :=
  (stripLit p.data s.data).isSome

/-- Python `str.endswith`. -/
def strEnds (s p : String) : Bool :=
  (stripLit p.data.reverse s.data.reverse).isSome

/-- `str.replace('.', '/')` of the source (single-character pattern). -/
def dotsToSlashes (s : String) : String :=
  String.mk (s.data.map fun c => if c = '.' then '/' else c)

/-- Greedy search used for the captured group `(\S*)` of the source's regexes:
the longest run of non-space characters after which the predicate on the rest
of the input holds.  Returns the length of the group. -/
def findGreedy (cs : List Char) (p : List Char → Bool) : Option Nat :=
  ((List.range ((cs.takeWhile fun c => !isPySpace c).length + 1)).reverse).find?
    fun i => p (cs.drop i)

/-- `re.match` of `NAME_DECLARATION`, the raw pattern
`\s*name\s=\s'(\S*)'.*` — returns the captured rule name. -/
def nameDeclGroup (s : String) : Option String :=
  match stripLit "name".data (s.data.dropWhile isPySpace) with
  | none => none
  | some r1 =>
    match r1 with
    | [] => none
    | c1 :: r2 =>
      if isPySpace c1 then
        match r2 with
        | '=' :: c2 :: r3 =>
          if isPySpace c2 then
            match r3 with
            | c3 :: r4 =>
              if c3 = qc then
                match findGreedy r4 (fun t => match t with
                    | c :: _ => c = qc
                    | [] => false) with
                | some i => some (String.mk (r4.take i))
                | none => none
              else none
            | [] => none
          else none
        | _ => none
      else none

/-- `re.match` of `DEP_DECLARATION`, the raw pattern `\s*'(\S*)',` —
returns the quoted dependency target. -/
def depDeclGroup (s : String) : Option String :=
  match s.data.dropWhile isPySpace with
  | c0 :: r =>
    if c0 = qc then
      match findGreedy r (fun t => match t with
          | c :: d :: _ => c = qc && d = ','
          | _ => false) with
      | some i => some (String.mk (r.take i))
      | none => none
    else none
  | [] => none

/-- `re.match` of `DEPS_START`, the raw pattern `\s*deps\s*=\s*\[$`
(`$` also matches just before one terminal newline). -/
def depsStartMatch (s : String) : Bool :=
  match stripLit "deps".data (s.data.dropWhile isPySpace) with
  | none => false
  | some r1 =>
    match r1.dropWhile isPySpace with
    | '=' :: r2 =>
      match r2.dropWhile isPySpace with
      | ['['] => true
      | ['[', '\n'] => true
      | _ => false
    | _ => false

/-- `re.match` of `JAVA_IMPORT`, the raw pattern `import (.*);$`: the group is
everything between `import ` and a final `;` (`$` also matches just before one
terminal newline, and `.` matches no newline). -/
def javaImportGroup (s : String) : Option String :=
  let cs := if s.data.getLast? = some '\n' then s.data.dropLast else s.data
  match stripLit "import ".data cs with
  | none => none
  | some r =>
    if r.getLast? = some ';' && !(r.any fun c => c = '\n') then
      some (String.mk r.dropLast)
    else none

/-- `re.match` of `INTERFACE_DECLARATION`, the raw pattern
`public\s+@?interface\s+.*` (anchored at the start of the line). -/
def interfaceDeclMatch (s : String) : Bool :=
  match stripLit "public".data s.data with
  | none => false
  | some r1 =>
    match r1 with
    | [] => false
    | c :: _ =>
      if isPySpace c then
        let r2 := r1.dropWhile isPySpace
        let r3 := match r2 with
          | '@' :: t => t
          | _ => r2
        match stripLit "interface".data r3 with
        | none => false
        | some [] => false
        | some (c2 :: _) => isPySpace c2
      else false

/-- `str.lstrip('/')`. -/
def pyLstripSlash (s : String) : String :=
  String.mk (s.data.dropWhile fun c => c = '/')

/-- `posixpath.join` on two components. -/
def pyPathJoin (a b : String) : String :=
  if strStarts b "/" then b
  else if a = "" || strEnds a "/" then a ++ b
  else a ++ "/" ++ b

/-- Index of the last slash in a string (`str.rfind('/')` when present). -/
def pyRfindSlash (s : String) : Option Nat :=
  ((List.range s.data.length).reverse).find? fun i => s.data.getD i ' ' = '/'

/-- `posixpath.basename`. -/
def pyBasename (s : String) : String :=
  match pyRfindSlash s with
  | none => s
  | some i => String.mk (s.data.drop (i + 1))

/-- `posixpath.dirname`: the part up to the last slash, trailing slashes
stripped unless the head is all slashes. -/
def pyDirname (s : String) : String :=
  match pyRfindSlash s with
  | none => ""
  | some i =>
    let head := s.data.take (i + 1)
    if head.all fun c => c = '/' then String.mk head
    else String.mk ((head.reverse.dropWhile fun c => c = '/').reverse)

/-- `str.split('/')` (keeps empty components, including a trailing one). -/
def pySplitSlashAux : List Char → List Char → List (List Char)
  | acc, [] => [acc.reverse]
  | acc, c :: rest =>
    if c = '/' then acc.reverse :: pySplitSlashAux [] rest
    else pySplitSlashAux (c :: acc) rest

/-- `str.split('/')`. -/
def pySplitSlash (s : String) : List String :=
  (pySplitSlashAux [] s.data).map fun cs => String.mk cs

/-- The component loop of `posixpath.normpath`: the accumulator is kept
reversed. -/
def normAux (initSlash : Bool) : List String → List String → List String
  | acc, [] => acc.reverse
  | acc, comp :: rest =>
    if comp = "" || comp = "." then normAux initSlash acc rest
    else if comp ≠ ".." || (!initSlash && acc.isEmpty) || (!acc.isEmpty && acc.headD "" = "..") then
      normAux initSlash (comp :: acc) rest
    else if !acc.isEmpty then normAux initSlash acc.tail rest
    else normAux initSlash acc rest

/-- `posixpath.normpath`. -/
def pyNormpath (p : String) : String :=
  if p = "" then "."
  else
    let initial := strStarts p "/"
    let dbl := strStarts p "//" && !(strStarts p "///")
    let joined := String.intercalate "/" (normAux initial [] (pySplitSlash p))
    let res := (if dbl then "//" else if initial then "/" else "") ++ joined
    if res = "" then "." else res

/-- `posixpath.abspath` relative to the given working directory. -/
def pyAbspath (cwd p : String) : String :=
  pyNormpath (pyPathJoin cwd p)

/-- Python string comparison: lexicographic by code point. -/
def pyCharListLe : List Char → List Char → Bool
  | [], _ => true
  | _ :: _, [] => false
  | x :: xs, y :: ys =>
    if x.toNat < y.toNat then true
    else if y.toNat < x.toNat then false
    else pyCharListLe xs ys

/-- Python `<=` on strings. -/
def pyStrLe (a b : String) : Bool :=
  pyCharListLe a.data b.data

/-- Insert into a list sorted by `pyStrLe`. -/
def sortedInsert (x : String) : List String → List String
  | [] => [x]
  | y :: ys => if pyStrLe x y then x :: y :: ys else y :: sortedInsert x ys

/-- Python `sorted` on a list of strings. -/
def pySorted : List String → List String
  | [] => []
  | x :: xs => sortedInsert x (pySorted xs)

/-- `pySorted` maps permuted lists to the same sorted list (the proof
obligation for lifting it to multisets). -/
def pySortedPermInv : ∀ l₁ l₂ : List String, l₁.Perm l₂ → pySorted l₁ = pySorted l₂ := by
  have htot : ∀ a b : String, pyStrLe a b = true ∨ pyStrLe b a = true := by
    intro a b
    unfold pyStrLe
    generalize a.data = xs
    generalize b.data = ys
    induction xs generalizing ys with
    | nil => exact Or.inl rfl
    | cons x xs ih =>
      cases ys with
      | nil => exact Or.inr rfl
      | cons y ys =>
        by_cases h1 : x.toNat < y.toNat
        · exact Or.inl (by simp [pyCharListLe, h1])
        · by_cases h2 : y.toNat < x.toNat
          · exact Or.inr (by simp [pyCharListLe, h1, h2])
          · rcases ih ys with h | h
            · exact Or.inl (by simp [pyCharListLe, h1, h2, h])
            · exact Or.inr (by simp [pyCharListLe, h1, h2, h])
  have hasymm : ∀ a b : String, pyStrLe a b = false → pyStrLe b a = true := by
    intro a b h
    rcases htot a b with h1 | h1
    · rw [h] at h1; exact absurd h1 (by simp)
    · exact h1
  have htrans : ∀ a b c : String, pyStrLe a b = true → pyStrLe b c = true →
      pyStrLe a c = true := by
    intro a b c h1 h2
    unfold pyStrLe at h1 h2 ⊢
    generalize ha : a.data = xs at h1
    generalize hb : b.data = ys at h1 h2
    generalize hc : c.data = zs at h2
    clear ha hb hc a b c
    induction xs generalizing ys zs with
    | nil => rfl
    | cons x xs ih =>
      cases ys with
      | nil => exact absurd h1 (by simp [pyCharListLe])
      | cons y ys =>
        cases zs with
        | nil => exact absurd h2 (by simp [pyCharListLe])
        | cons z zs =>
          simp only [pyCharListLe] at h1 h2 ⊢
          split at h1
          · rename_i hxy
            split at h2
            · rename_i hyz
              simp [show x.toNat < z.toNat by omega]
            · split at h2
              · exact absurd h2 (by simp)
              · rename_i hyz hzy
                simp [show x.toNat < z.toNat by omega]
          · split at h1
            · exact absurd h1 (by simp)
            · rename_i hxy hyx
              split at h2
              · rename_i hyz
                simp [show x.toNat < z.toNat by omega]
              · split at h2
                · exact absurd h2 (by simp)
                · rename_i hyz hzy
                  have hxz : ¬ x.toNat < z.toNat := by omega
                  have hzx : ¬ z.toNat < x.toNat := by omega
                  simp [hxz, hzx]
                  exact ih _ h1 _ h2
  have hanti : ∀ a b : String, pyStrLe a b = true → pyStrLe b a = true → a = b := by
    intro a b h1 h2
    unfold pyStrLe at h1 h2
    cases a with
    | mk la =>
      cases b with
      | mk lb =>
        refine congrArg String.mk ?_
        simp only at h1 h2
        induction la generalizing lb with
        | nil =>
          cases lb with
          | nil => rfl
          | cons y ys => exact absurd h2 (by simp [pyCharListLe])
        | cons x xs ih =>
          cases lb with
          | nil => exact absurd h1 (by simp [pyCharListLe])
          | cons y ys =>
            simp only [pyCharListLe] at h1 h2
            by_cases hxy : x.toNat < y.toNat
            · exfalso
              rw [if_neg (by omega : ¬ y.toNat < x.toNat), if_pos hxy] at h2
              exact absurd h2 (by simp)
            · by_cases hyx : y.toNat < x.toNat
              · exfalso
                rw [if_neg hxy, if_pos hyx] at h1
                exact absurd h1 (by simp)
              · rw [if_neg hxy, if_neg hyx] at h1
                rw [if_neg hyx, if_neg hxy] at h2
                have hc : x = y := by
                  have hvx := Char.ofNat_toNat x
                  rw [(by omega : x.toNat = y.toNat)] at hvx
                  exact hvx.symm.trans (Char.ofNat_toNat y)
                rw [hc, ih _ h1 h2]
  have hcomm : ∀ (a b : String) (L : List String),
      sortedInsert a (sortedInsert b L) = sortedInsert b (sortedInsert a L) := by
    intro a b L
    induction L with
    | nil =>
      simp only [sortedInsert]
      by_cases hab : pyStrLe a b = true
      · by_cases hba : pyStrLe b a = true
        · rw [hanti a b hab hba]
        · simp [sortedInsert, hab, hba]
      · have hba := hasymm a b (by simpa using hab)
        simp [sortedInsert, hab, hba]
    | cons c L ih =>
      by_cases hab : pyStrLe a b = true
      · by_cases hba : pyStrLe b a = true
        · rw [hanti a b hab hba]
        · by_cases hbc : pyStrLe b c = true
          · have hac : pyStrLe a c = true := htrans a b c hab hbc
            simp [sortedInsert, hab, hba, hbc, hac]
          · by_cases hac : pyStrLe a c = true
            · simp [sortedInsert, hab, hba, hbc, hac]
            · simp [sortedInsert, hab, hba, hbc, hac, ih]
      · have hba := hasymm a b (by simpa using hab)
        by_cases hac : pyStrLe a c = true
        · have hbc : pyStrLe b c = true := htrans b a c hba hac
          simp [sortedInsert, hab, hba, hbc, hac]
        · by_cases hbc : pyStrLe b c = true
          · simp [sortedInsert, hab, hba, hbc, hac]
          · simp [sortedInsert, hab, hba, hbc, hac, ih]
  intro l₁ l₂ h
  induction h with
  | nil => rfl
  | cons x _ ih => simp [pySorted, ih]
  | swap x y l => exact hcomm y x (pySorted l)
  | trans _ _ ih₁ ih₂ => exact ih₁.trans ih₂

/-- Python `sorted` lifted to a multiset of strings. -/
def pySortedM (m : Multiset String) : List String :=
  Quot.lift pySorted (fun l₁ l₂ h => pySortedPermInv l₁ l₂ h) m

/-- `format_deps_for_buck_file`: each dependency formatted as five spaces, the
quoted target and a comma, the whole listing sorted. -/
def format_deps_for_buck_file (deps : Finset String) : List String :=
  pySortedM (deps.val.map fun dep => "     '" ++ dep ++ "',")

/-! ## Declaration Editor: `modify_buck_rule`

The source opens the BUCK file named by the target, iterates its
`readlines()` output, rebuilds the line list and, when a modification
happened, rewrites the file with `'\n'.join(...)`.  The embedding takes the
file content and the rule name (in the source, `buck_rule.split(':')[1]`)
directly, and returns `none` for the `IndexError` raised by
`buck_file_with_new_deps[-1]` on the empty list, otherwise the `modified_file`
flag plus the content on disk afterwards. -/

/-- Loop state of `modify_buck_rule`: the collected `existing_deps` set, the
accumulated `buck_file_with_new_deps` lines and the three scan flags plus
`modified_file`. -/
structure MState where
  existing : Finset String
  out : List String
  foundOpen : Bool
  foundClose : Bool
  foundName : Bool
  modified : Bool
deriving DecidableEq

/-- Initial loop state of `modify_buck_rule`. -/
def mInit : MState := ⟨∅, [], false, false, false, false⟩

/-- One iteration of the line loop of `modify_buck_rule`; the source applies
`line.rstrip()` first.  A `new_rule_type` that is `None` or empty is falsy in
the source's conjunction, so the preceding-line access is skipped then. -/
def modifyStep (ruleName : String) (newDepsFn : Finset String → Finset String)
    (newRuleType : Option String) (st : MState) (physLine : String) : Option MState :=
  let line := pyRstrip physLine
  if nameDeclGroup line = some ruleName then
    match newRuleType with
    | some k =>
      if k = "" then
        some { st with foundName := true, out := st.out ++ [line] }
      else
        match st.out.getLast? with
        | none => none
        | some last =>
          if strStarts last k then
            some { st with foundName := true, out := st.out ++ [line] }
          else
            some { st with
                   foundName := true
                   modified := true
                   out := st.out.dropLast ++ [k ++ "("] ++ [line] }
    | none => some { st with foundName := true, out := st.out ++ [line] }
  else if st.foundName && depsStartMatch line && !st.foundClose then
    some { st with foundOpen := true }
  else if st.foundOpen && !st.foundClose then
    if strEnds line "]," then
      let newDeps := newDepsFn st.existing
      some { st with
             out := st.out ++ ["  deps = ["] ++ format_deps_for_buck_file newDeps ++ ["  ],"]
             modified := st.modified || decide (newDeps ≠ st.existing)
             foundClose := true }
    else
      match depDeclGroup line with
      | some d => some { st with existing := insert d st.existing }
      | none => some st
  else
    some { st with out := st.out ++ [line] }

/-- The line loop of `modify_buck_rule` over the `readlines()` output. -/
def modifyGo (ruleName : String) (newDepsFn : Finset String → Finset String)
    (newRuleType : Option String) : MState → List String → Option MState
  | st, [] => some st
  | st, l :: ls =>
    match modifyStep ruleName newDepsFn newRuleType st l with
    | none => none
    | some st' => modifyGo ruleName newDepsFn newRuleType st' ls

/-- `modify_buck_rule` on a file content: returns `(modified_file, content of
the file on disk afterwards)`, or `none` for the `IndexError` of the
`new_rule_type` branch. -/
def modify_buck_rule (content ruleName : String)
    (newDepsFn : Finset String → Finset String) (newRuleType : Option String) :
    Option (Bool × String) :=
  match modifyGo ruleName newDepsFn newRuleType mInit (pyReadlines content) with
  | none => none
  | some st =>
    some (st.modified, if st.modified then String.intercalate "\n" st.out else content)

/-! ## Rule Generator and Import Resolver -/

/-- `INTERFACE_SUFFIX` of the source. -/
def INTERFACE_SUFFIX : String := "-interfaces"

/-- The read-only inputs of the Import Resolver: an explicit filesystem
(association list from path to file content), the working directory for
`path.abspath`, the `--split_interfaces` flag, the `src_roots` list, the
`third_party_map` dict and the `android_libraries` set as read inside
`get_deps_for_files`. -/
structure DCtx where
  fs : List (String × String)
  cwd : String
  split_interfaces : Bool
  src_roots : List String
  third_party_map : List (String × String)
  android_libraries : Finset String

/-- `os.path.exists` over the explicit filesystem. -/
def fsExists (ctx : DCtx) (p : String) : Bool :=
  (ctx.fs.lookup p).isSome

/-- Content of a file of the explicit filesystem (the source opens the file,
which the inputs considered always contain). -/
def fsRead (ctx : DCtx) (p : String) : String :=
  (ctx.fs.lookup p).getD ""

/-- `is_interface_file`: `False` when `--split_interfaces` is off, else
whether any line of the file matches `INTERFACE_DECLARATION`. -/
def is_interface_file (ctx : DCtx) (p : String) : Bool :=
  ctx.split_interfaces && (pyReadlines (fsRead ctx p)).any interfaceDeclMatch

/-- `get_interface_files`: iterate the `.java` files of the directory; the
source's loop body does `interface_files.add(file); break` on the first
interface file, so at most one file is collected. -/
def get_interface_files (ctx : DCtx) (root : String) : List String → Finset String
  | [] => ∅
  | f :: rest =>
    if strEnds f ".java" then
      if is_interface_file ctx (pyPathJoin root f) then
        insert f ∅
      else get_interface_files ctx root rest
    else get_interface_files ctx root rest

/-- Mutable loop state of `get_deps_for_files`: the `deps` set, the
`has_android_deps` flag, and the `rule_name` variable (which the source
reassigns inside the local-resolution branch, shadowing the parameter). -/
structure DState where
  deps : Finset String
  hasAndroid : Bool
  ruleName : String
deriving DecidableEq

/-- The `for src_root in src_roots` loop of `get_deps_for_files`: try each
source root for a local `.java` file matching the import; on the first hit,
derive the target, reassign `rule_name`, add the dependency unless it resolves
to the directory under analysis, and `break`. -/
def tryRoots (ctx : DCtx) (root javaFile : String) (st : DState) :
    List String → DState
  | [] => st
  | sr :: rest =>
    let sr' := pyLstripSlash sr
    let full := pyPathJoin sr' javaFile
    if fsExists ctx full then
      let target_basename := pyPathJoin sr' (pyDirname javaFile)
      let rn0 := pyBasename (pyDirname javaFile)
      let rn := if is_interface_file ctx full then rn0 ++ INTERFACE_SUFFIX else rn0
      let target := "//" ++ target_basename ++ ":" ++ rn
      if pyAbspath ctx.cwd target_basename ≠ pyAbspath ctx.cwd root then
        { deps := insert target st.deps,
          hasAndroid := st.hasAndroid || decide (target ∈ ctx.android_libraries),
          ruleName := rn }
      else
        { st with ruleName := rn }
    else tryRoots ctx root javaFile st rest

/-- One line of one source file inside `get_deps_for_files`: match
`JAVA_IMPORT`, flag platform imports, then prefer the `third_party_map` entry
and otherwise scan the source roots. -/
def processLine (ctx : DCtx) (root : String) (st : DState) (line : String) : DState :=
  match javaImportGroup line with
  | none => st
  | some needed =>
    let st1 := if strStarts needed "android" || strStarts needed "com.android" then
        { st with hasAndroid := true }
      else st
    match ctx.third_party_map.lookup needed with
    | some t => { st1 with deps := insert t st1.deps }
    | none => tryRoots ctx root (dotsToSlashes needed ++ ".java") st1 ctx.src_roots

/-- All lines of one source file inside `get_deps_for_files`. -/
def processLines (ctx : DCtx) (root : String) : DState → List String → DState
  | st, [] => st
  | st, l :: ls => processLines ctx root (processLine ctx root st l) ls

/-- The file loop of `get_deps_for_files` (the source's generator keeps only
names ending in `.java`). -/
def processFiles (ctx : DCtx) (root : String) : DState → List String → DState
  | st, [] => st
  | st, f :: rest =>
    if strEnds f ".java" then
      processFiles ctx root
        (processLines ctx root st (pyReadlines (fsRead ctx (pyPathJoin root f)))) rest
    else processFiles ctx root st rest

/-- `get_deps_for_files`: returns `(deps, has_android_deps, android_libraries
after the final add)`.  The final `android_libraries.add(rule_name)` uses the
`rule_name` variable, which the local-resolution branch may have reassigned. -/
def get_deps_for_files (ctx : DCtx) (root : String) (files : List String)
    (rule_name : String) : Finset String × Bool × Finset String :=
  let st := processFiles ctx root ⟨∅, false, rule_name⟩ files
  (st.deps, st.hasAndroid,
    if st.hasAndroid then insert st.ruleName ctx.android_libraries
    else ctx.android_libraries)

/-! ## Convergence Loop: diagnostics parsing -/

/-- The line loop of `find_missing_deps_from_output` over the stripped lines
of the tool output, carrying the `in_try_adding` and `in_missing_deps`
flags. -/
def findMissingGo (inTry inMiss : Bool) (acc : Finset String) :
    List String → Finset String
  | [] => acc
  | line :: rest =>
    if line = "Try adding the following deps:" then findMissingGo true inMiss acc rest
    else if inTry then
      if line = "" then findMissingGo false inMiss acc rest
      else findMissingGo inTry inMiss (insert line acc) rest
    else if strEnds line " is missing deps:" then findMissingGo inTry true acc rest
    else if inMiss then
      match depDeclGroup line with
      | some d => findMissingGo inTry inMiss (insert d acc) rest
      | none => findMissingGo inTry false acc rest
    else findMissingGo inTry inMiss acc rest

/-- `find_missing_deps_from_output`: parse the two diagnostic shapes out of
the tool output and drop the rule being built from the result. -/
def find_missing_deps_from_output (buck_rule output : String) : Finset String :=
  (findMissingGo false false ∅ ((pySplitlines output).map pyStrip)).filter (· ≠ buck_rule)

/-! ## Cycle Analyzer

`get_files_for_rule` clears a rule's dependency list with `modify_buck_rule`,
runs the external `buck audit input` query and restores the list; it is
abstracted here as the `get_files_for_rule` oracle argument.  `find_smallest_dep`
is its caller: for every position of the cycle it binds `current` and `next`
and computes the two audited input-file sets that the source compares — both
via `get_files_for_rule(current)` (source line 693 passes `current`, not
`next`). -/

/-- The comparison data computed by `find_smallest_dep` for each adjacent pair
of the cycle: `(current, next, current_files, next_files)`. -/
def find_smallest_dep (get_files_for_rule : String → List String)
    (cycle : List String) : List (String × String × Finset String × Finset String) :=
  (List.range cycle.length).map fun i =>
    let current := cycle.getD i ""
    let nxt := cycle.getD ((i + 1) % cycle.length) ""
    let current_files := (get_files_for_rule current).toFinset
    let next_files := (get_files_for_rule current).toFinset
    (current, nxt, current_files, next_files)

/-! ## Convergence Loop: `add_missing_deps`

`add_missing_deps_pass` builds every rule with the external tool and, on a
failure, merges the parsed missing dependencies into the rule's declaration
with `modify_buck_rule`, possibly rewriting the rule kind to
`android_library`, and propagates `android_libraries` membership.  The
embedding keeps the persistent state abstract at the level `modify_buck_rule`
acts on it: per rule, the declared dependency set, and whether the rule's
opening line already starts with `android_library` (what the
`new_rule_type` branch of `modify_buck_rule` tests); the build tool is an
oracle from the current state and rule to `None` (build succeeded) or the
already-parsed result of `find_missing_deps_from_output` (which never
contains the rule itself). -/

/-- Persistent state that a pass of the convergence loop reads and writes. -/
structure ConvSt where
  deps : String → Finset String
  kindA : String → Bool
  alibs : Finset String

/-- One rule's treatment inside `add_missing_deps_pass`: returns the new
state and whether `modify_buck_rule` reported the file modified. -/
def processRule (oracle : ConvSt → String → Option (Finset String))
    (st : ConvSt) (rule : String) : ConvSt × Bool :=
  match oracle st rule with
  | none => (st, false)
  | some missing =>
    let wantA := decide (rule ∈ st.alibs)
    let existing := st.deps rule
    let newDeps := existing ∪ missing
    let kindChanged := wantA && !st.kindA rule
    let depsChanged := decide (newDeps ≠ existing)
    let st1 : ConvSt :=
      { deps := Function.update st.deps rule newDeps
        kindA := fun r => if r = rule && kindChanged then true else st.kindA r
        alibs := if ∃ d ∈ missing ∪ existing, d ∈ st.alibs then insert rule st.alibs
                 else st.alibs }
    (st1, kindChanged || depsChanged)

/-- The rule loop of `add_missing_deps_pass`, threading `files_changed`. -/
def passGo (oracle : ConvSt → String → Option (Finset String)) :
    ConvSt → Nat → List String → ConvSt × Nat
  | st, n, [] => (st, n)
  | st, n, r :: rest =>
    let p := processRule oracle st r
    passGo oracle p.1 (if p.2 then n + 1 else n) rest

/-- `add_missing_deps_pass`: one full pass over `buck_rules`, returning the
new state and the number of files changed. -/
def add_missing_deps_pass (oracle : ConvSt → String → Option (Finset String))
    (rules : List String) (st : ConvSt) : ConvSt × Nat :=
  passGo oracle st 0 rules

/-- State after `n` passes of the `add_missing_deps` while loop. -/
def passes (oracle : ConvSt → String → Option (Finset String))
    (rules : List String) (st : ConvSt) : Nat → ConvSt
  | 0 => st
  | n + 1 => (add_missing_deps_pass oracle rules (passes oracle rules st n)).1

/-- Termination measure of one rule against a finite suggestion universe:
dependencies of the universe still missing, plus one if the rule's kind may
still be rewritten. -/
def ruleMeasure (U : Finset String) (st : ConvSt) (r : String) : Nat :=
  (U \ st.deps r).card + (if st.kindA r then 0 else 1)

/-- Termination measure of the whole loop state. -/
def convMeasure (U : Finset String) (rules : List String) (st : ConvSt) : Nat :=
  (rules.map (ruleMeasure U st)).sum

/-! ## Concrete inputs used by the claims -/

/-- A directory `d` holding two interface-only files. -/
def C1ctx : DCtx :=
  { fs := [("d/A.java", "public interface A extends X\n"),
           ("d/B.java", "public interface B extends Y\n")]
    cwd := "/w"
    split_interfaces := true
    src_roots := ["src"]
    third_party_map := []
    android_libraries := ∅ }

/-- A directory `src/a` whose file imports a platform class and a locally
resolvable class `b.C`. -/
def C2ctx : DCtx :=
  { fs := [("src/a/A.java", "import android.util.Log;\nimport b.C;\n"),
           ("src/b/C.java", "class C\n")]
    cwd := "/w"
    split_interfaces := false
    src_roots := ["src"]
    third_party_map := []
    android_libraries := ∅ }

/-- A class `b.C` that is both in the Class Index and present as a local
source file under the recognized root. -/
def C6ctx : DCtx :=
  { fs := [("src/a/A.java", "import b.C;\n"),
           ("src/b/C.java", "class C\n")]
    cwd := "/w"
    split_interfaces := false
    src_roots := ["src"]
    third_party_map := [("b.C", "//libs:lib")]
    android_libraries := ∅ }

/-- Build-tool failure output for `//a:a` that names `//a:a` elsewhere, lists
`'//a:a',` and `'//b:b',` under the `is missing deps:` block. -/
def C8output : String :=
  "//a:a\n//a:a is missing deps:\n  '//a:a',\n  '//b:b',\n"

/-- A BUCK file whose very first line is the `name` declaration of rule `a`. -/
def C10bad : String :=
  "  name = 'a',\n  deps = [\n  ],\n)\n"

/-- The same declaration with the usual opening line before the name. -/
def C10good : String :=
  "java_library(\n  name = 'a',\n  deps = [\n  ],\n)\n"

/-- The file rewritten by the C4 counterexample: trailing spaces on the final
line and a final newline. -/
def C4content : String :=
  "java_library(\n  name = 'a',\n  srcs = glob(['*.java']),\n  deps = [\n  ],\n)   \n"

/-- What `modify_buck_rule` actually leaves on disk for `C4content` when a
dependency is added. -/
def C4actual : String :=
  "java_library(\n  name = 'a',\n  srcs = glob(['*.java']),\n  deps = [\n     '//b:b',\n  ],\n)"

/-- What a byte-for-byte rewrite outside the dependency block would have left
on disk for `C4content`. -/
def C4preserved : String :=
  "java_library(\n  name = 'a',\n  srcs = glob(['*.java']),\n  deps = [\n     '//b:b',\n  ],\n)   \n"

/-- The middle lines of the file family used for the corrected frame
property: a declaration of rule `a` with one existing dependency. -/
def C4mid : List String :=
  ["java_library(", "  name = 'a',", "  srcs = glob(['*.java']),",
   "  deps = [", "     '//x:x',", "  ],"]

/-- A declaration of rule `a` whose kind is already `android_library`. -/
def C5content : String :=
  "android_library(\n  name = 'a',\n  deps = [\n     '//x:x',\n  ],\n)\n"

/-- Always-succeeding build oracle (used to instantiate the termination
theorem). -/
def C9oracle : ConvSt → String → Option (Finset String) := fun _ _ => none

/-- An initial convergence state with empty dependency lists. -/
def C9st : ConvSt := ⟨fun _ => ∅, fun _ => false, ∅⟩


/-! ## Claims: concrete evaluations -/

/-- C1: falsified by the source's `break` — in a directory with two
interface-only files `A.java` and `B.java`, `is_interface_file` accepts
`B.java`, yet the computed interface subset is only `A.java`; the subset does
not contain every matching file. -/
theorem C1_break_keeps_only_first_interface_file :
    is_interface_file C1ctx "d/B.java" = true ∧
    get_interface_files C1ctx "d" ["A.java", "B.java"] = insert "A.java" ∅ ∧
    "B.java" ∉ get_interface_files C1ctx "d" ["A.java", "B.java"] := by
  refine ⟨by decide, by decide, by decide⟩

/-- C2: falsified by the shadowed `rule_name` variable — the directory
`src/a` (rule `//src/a:a`) imports `android.util.Log` and the locally
resolved `b.C`; the local-resolution branch reassigns `rule_name` to `b`, so
the final `android_libraries.add(rule_name)` adds `b` and not the rule name
passed in. -/
theorem C2_android_set_gets_shadowed_rule_name :
    get_deps_for_files C2ctx "src/a" ["A.java"] "//src/a:a" =
      (insert "//src/b:b" ∅, true, insert "b" ∅) ∧
    "//src/a:a" ∉ (get_deps_for_files C2ctx "src/a" ["A.java"] "//src/a:a").2.2 := by
  refine ⟨by decide, by decide⟩

/-- C3: falsified by line 693 of the source — on the cycle
the two-target cycle with an audit oracle returning the singleton of its
argument, both computed file sets of every pair are those of `current`; the
set audited for the second member of the first edge, namely the singleton of
`//b:b`, never appears as comparison data. -/
theorem C3_next_files_audit_uses_current :
    find_smallest_dep (fun t => [t]) ["//a:a", "//b:b"] =
      [("//a:a", "//b:b", insert "//a:a" ∅, insert "//a:a" ∅),
       ("//b:b", "//a:a", insert "//b:b" ∅, insert "//b:b" ∅)] ∧
    ((find_smallest_dep (fun t => [t]) ["//a:a", "//b:b"]).getD 0
        ("", "", ∅, ∅)).2.2.2 ≠
      ((fun t => [t]) "//b:b").toFinset := by
  refine ⟨by decide, by decide⟩

/-- C8: the scenario diagnostic for `//a:a` — whose text also names `//a:a`
on another line and even lists `'//a:a',` inside the block — parses to
exactly the set containing `//b:b`; `//b:b` is reported and `//a:a` is
filtered out. -/
theorem C8_missing_deps_scenario :
    find_missing_deps_from_output "//a:a" C8output = insert "//b:b" ∅ ∧
    "//b:b" ∈ find_missing_deps_from_output "//a:a" C8output ∧
    "//a:a" ∉ find_missing_deps_from_output "//a:a" C8output := by
  refine ⟨by decide, by decide, by decide⟩

/-- C10: a kind override on a file whose very first line is the matched name
declaration reads the preceding accumulated line of an empty list and fails
(`none`, the source's `IndexError`); with one line before the declaration the
same call completes. -/
theorem C10_kind_override_first_line_crash :
    modify_buck_rule C10bad "a" (fun s => s) (some "android_library") = none ∧
    (modify_buck_rule C10good "a" (fun s => s) (some "android_library")).isSome = true := by
  refine ⟨by decide, by decide⟩

/-- C4 counterexample: rewriting the dependency list of `C4content` — whose
final line `)` carries trailing spaces and which ends in a newline — reports
a modification but writes `C4actual`, which differs from the byte-for-byte
preservation `C4preserved` of every line outside the dependency block: the
trailing whitespace and the final newline are gone. -/
theorem C4_outside_lines_not_byte_identical :
    modify_buck_rule C4content "a" (fun s => insert "//b:b" s) none =
      some (true, C4actual) ∧
    C4actual ≠ C4preserved := by
  refine ⟨by decide, by decide⟩

/-! ## Declaration Editor: identity rewrite -/

/-- With no kind override and a dependency-replacing function that fixes every
set, the line loop of `modify_buck_rule` never fails and never sets
`modified_file`. -/
theorem modifyGo_id_none (ruleName : String) (f : Finset String → Finset String)
    (hf : ∀ s, f s = s) :
    ∀ (lines : List String) (st : MState), st.modified = false →
      ∃ st', modifyGo ruleName f none st lines = some st' ∧ st'.modified = false := by
  intro lines
  induction lines with
  | nil => intro st h; exact ⟨st, rfl, h⟩
  | cons l ls ih =>
    intro st h
    have hstep : ∃ st1, modifyStep ruleName f none st l = some st1 ∧
        st1.modified = false := by
      simp only [modifyStep]
      split
      · exact ⟨_, rfl, h⟩
      · split
        · exact ⟨_, rfl, h⟩
        · split
          · split
            · refine ⟨_, rfl, ?_⟩
              simp [h, hf st.existing]
            · split
              · exact ⟨_, rfl, h⟩
              · exact ⟨_, rfl, h⟩
          · exact ⟨_, rfl, h⟩
    obtain ⟨st1, he, hm⟩ := hstep
    have hgo : modifyGo ruleName f none st (l :: ls) =
        modifyGo ruleName f none st1 ls := by
      simp only [modifyGo, he]
    rw [hgo]
    exact ih st1 hm

/-- C5: a replace-function returning a set equal to the existing dependency
set reports no change and leaves the file byte-for-byte unchanged — in
general with no kind override, and on `C5content` with an already satisfied
`android_library` override. -/
theorem C5_identity_deps_no_change (content ruleName : String)
    (f : Finset String → Finset String) (hf : ∀ s, f s = s) :
    modify_buck_rule content ruleName f none = some (false, content) ∧
    modify_buck_rule C5content "a" f (some "android_library") =
      some (false, C5content) := by
  constructor
  · obtain ⟨st', he, hm⟩ :=
      modifyGo_id_none ruleName f hf (pyReadlines content) mInit rfl
    unfold modify_buck_rule
    rw [he]
    simp [hm]
  · have hfe : f = fun s => s := funext hf
    subst hfe
    decide

/-- Witness for C5 at the concrete declaration `C5content` with the identity
replace-function. -/
theorem C5_identity_deps_no_change_witness :
    modify_buck_rule C5content "a" (fun s => s) none = some (false, C5content) :=
  (C5_identity_deps_no_change C5content "a" (fun s => s) fun _ => rfl).1

/-! ## Declaration Editor: frame property of the rewrite -/

/-- A line that does not name the matched rule, seen before the rule was
found, is appended to the output with its trailing whitespace stripped. -/
theorem modifyStep_outside (ruleName : String) (f : Finset String → Finset String)
    (st : MState) (l : String)
    (hn : ¬ nameDeclGroup (pyRstrip l) = some ruleName)
    (h1 : st.foundName = false) (h2 : st.foundOpen = false) :
    modifyStep ruleName f none st l = some { st with out := st.out ++ [pyRstrip l] } := by
  simp [modifyStep, hn, h1, h2]

/-- Once the dependency block has been closed (and with no kind override),
every further line is appended with its trailing whitespace stripped. -/
theorem modifyStep_after_close (ruleName : String) (f : Finset String → Finset String)
    (st : MState) (l : String) (hc : st.foundClose = true) (hn : st.foundName = true) :
    modifyStep ruleName f none st l = some { st with out := st.out ++ [pyRstrip l] } := by
  obtain ⟨e, o, fo, fc, fn, m⟩ := st
  simp only at hc hn
  subst hc hn
  simp only [modifyStep]
  by_cases hname : nameDeclGroup (pyRstrip l) = some ruleName
  · rw [if_pos hname]
  · rw [if_neg hname]
    simp

/-- Prefix lines that do not declare the matched rule pass through the line
loop unchanged except for right-stripping. -/
theorem modifyGo_outside (ruleName : String) (f : Finset String → Finset String) :
    ∀ (pre rest : List String) (st : MState),
      (∀ l ∈ pre, ¬ nameDeclGroup (pyRstrip l) = some ruleName) →
      st.foundName = false → st.foundOpen = false →
      modifyGo ruleName f none st (pre ++ rest) =
        modifyGo ruleName f none { st with out := st.out ++ pre.map pyRstrip } rest := by
  intro pre
  induction pre with
  | nil =>
    intro rest st _ _ _
    simp
  | cons l pre ih =>
    intro rest st hp h1 h2
    have hstep := modifyStep_outside ruleName f st l (hp l (by simp)) h1 h2
    have hgo : modifyGo ruleName f none st (l :: (pre ++ rest)) =
        modifyGo ruleName f none { st with out := st.out ++ [pyRstrip l] } (pre ++ rest) := by
      simp only [modifyGo, hstep]
    rw [List.cons_append, hgo,
      ih rest { st with out := st.out ++ [pyRstrip l] }
        (fun x hx => hp x (by simp [hx])) h1 h2]
    congr 1
    simp [List.append_assoc]

/-- After the dependency block is closed, the remaining lines pass through
the line loop unchanged except for right-stripping. -/
theorem modifyGo_after_close (ruleName : String) (f : Finset String → Finset String) :
    ∀ (suf : List String) (st : MState), st.foundClose = true → st.foundName = true →
      modifyGo ruleName f none st suf =
        some { st with out := st.out ++ suf.map pyRstrip } := by
  intro suf
  induction suf with
  | nil =>
    intro st _ _
    simp [modifyGo]
  | cons l ls ih =>
    intro st hc hn
    have hstep := modifyStep_after_close ruleName f st l hc hn
    have hgo : modifyGo ruleName f none st (l :: ls) =
        modifyGo ruleName f none { st with out := st.out ++ [pyRstrip l] } ls := by
      simp only [modifyGo, hstep]
    rw [hgo, ih { st with out := st.out ++ [pyRstrip l] } hc hn]
    congr 1
    simp [List.append_assoc]

/-- With no kind override the output list is append-only, so a prefix of the
accumulated output passes through the line loop untouched. -/
theorem modifyStep_out_shift (ruleName : String) (f : Finset String → Finset String)
    (st : MState) (l : String) (Q : List String) :
    modifyStep ruleName f none { st with out := Q ++ st.out } l =
      (modifyStep ruleName f none st l).map
        (fun st' => { st' with out := Q ++ st'.out }) := by
  simp only [modifyStep]
  split
  · simp [List.append_assoc]
  · split
    · simp
    · split
      · split
        · simp [List.append_assoc]
        · split
          · simp
          · simp
      · simp [List.append_assoc]

/-- Output-prefix shift through the whole line loop (no kind override). -/
theorem modifyGo_out_shift (ruleName : String) (f : Finset String → Finset String) :
    ∀ (lines : List String) (st : MState) (Q : List String),
      modifyGo ruleName f none { st with out := Q ++ st.out } lines =
        (modifyGo ruleName f none st lines).map
          (fun st' => { st' with out := Q ++ st'.out }) := by
  intro lines
  induction lines with
  | nil => intro st Q; simp [modifyGo]
  | cons l ls ih =>
    intro st Q
    have hs := modifyStep_out_shift ruleName f st l Q
    cases hstep : modifyStep ruleName f none st l with
    | none =>
      rw [hstep] at hs
      simp [modifyGo, hs, hstep]
    | some st' =>
      rw [hstep] at hs
      simp only [modifyGo, hs, hstep, Option.map]
      exact ih st' Q

/-- C4 (amended): whenever `modify_buck_rule` rewrites the dependency list of
rule `a` in a file made of any prefix lines not declaring `a`, the `C4mid`
declaration and any suffix lines, every line outside the matched block is
written back with (only) its trailing whitespace stripped, and the output
line list is exactly the right-stripped prefix lines, the rebuilt declaration
and the right-stripped suffix lines (later joined by single newlines, so the
original final newline is not reproduced). -/
theorem C4_frame_modulo_rstrip (pre suf : List String)
    (f : Finset String → Finset String)
    (hp : ∀ l ∈ pre, ¬ nameDeclGroup (pyRstrip l) = some "a") :
    modifyGo "a" f none mInit (pre ++ (C4mid ++ suf)) =
      some ⟨insert "//x:x" ∅,
        pre.map pyRstrip ++
          (["java_library(", "  name = 'a',", "  srcs = glob(['*.java']),",
            "  deps = ["] ++
            format_deps_for_buck_file (f (insert "//x:x" ∅)) ++ ["  ],"]) ++
          suf.map pyRstrip,
        true, true, true,
        decide (f (insert "//x:x" ∅) ≠ insert "//x:x" ∅)⟩ := by
  rw [modifyGo_outside "a" f pre (C4mid ++ suf) mInit hp rfl rfl]
  rw [show mInit.out ++ pre.map pyRstrip = pre.map pyRstrip ++ mInit.out by simp [mInit]]
  rw [modifyGo_out_shift "a" f (C4mid ++ suf) mInit (pre.map pyRstrip)]
  rw [show modifyGo "a" f none mInit (C4mid ++ suf) =
      modifyGo "a" f none
        ⟨insert "//x:x" ∅,
         "java_library(" :: "  name = 'a'," :: "  srcs = glob(['*.java'])," ::
           "  deps = [" ::
           (format_deps_for_buck_file (f (insert "//x:x" ∅)) ++ ["  ],"]),
         true, true, true,
         false || decide (f (insert "//x:x" ∅) ≠ insert "//x:x" ∅)⟩ suf from rfl]
  rw [modifyGo_after_close "a" f suf _ rfl rfl]
  simp [List.append_assoc]

/-- Witness for the amended C4 frame property: one prefix line and one suffix
line, both with trailing spaces, and a replace-function adding `//b:b`. -/
theorem C4_frame_modulo_rstrip_witness :
    modifyGo "a" (fun s => insert "//b:b" s) none mInit
      (["x  "] ++ (C4mid ++ ["tail  "])) =
      some ⟨insert "//x:x" ∅,
        ["x", "java_library(", "  name = 'a',", "  srcs = glob(['*.java']),",
         "  deps = [", "     '//b:b',", "     '//x:x',", "  ],", "tail"],
        true, true, true, true⟩ := by
  have h := C4_frame_modulo_rstrip ["x  "] ["tail  "]
    (fun s => insert "//b:b" s) (by decide)
  exact h.trans (by decide)

/-! ## Import Resolver: dependency-set lemmas -/

/-- The source-root scan only grows the dependency set. -/
theorem tryRoots_deps_mono (ctx : DCtx) (root javaFile : String) :
    ∀ (roots : List String) (st : DState),
      st.deps ⊆ (tryRoots ctx root javaFile st roots).deps := by
  intro roots
  induction roots with
  | nil => intro st; exact Finset.Subset.refl _
  | cons sr rest ih =>
    intro st
    simp only [tryRoots]
    split
    · split
      · exact Finset.subset_insert _ _
      · exact Finset.Subset.refl _
    · exact ih st

/-- Processing one line only grows the dependency set. -/
theorem processLine_deps_mono (ctx : DCtx) (root : String) (st : DState) (l : String) :
    st.deps ⊆ (processLine ctx root st l).deps := by
  simp only [processLine]
  split
  · exact Finset.Subset.refl _
  · split <;> split <;>
      first
        | exact Finset.subset_insert _ _
        | exact tryRoots_deps_mono ctx root _ ctx.src_roots ⟨st.deps, true, st.ruleName⟩
        | exact tryRoots_deps_mono ctx root _ ctx.src_roots st

/-- Processing a file's lines only grows the dependency set. -/
theorem processLines_deps_mono (ctx : DCtx) (root : String) :
    ∀ (ls : List String) (st : DState),
      st.deps ⊆ (processLines ctx root st ls).deps := by
  intro ls
  induction ls with
  | nil => intro st; exact Finset.Subset.refl _
  | cons l ls ih =>
    intro st
    exact (processLine_deps_mono ctx root st l).trans (ih _)

/-- Processing a directory's files only grows the dependency set. -/
theorem processFiles_deps_mono (ctx : DCtx) (root : String) :
    ∀ (files : List String) (st : DState),
      st.deps ⊆ (processFiles ctx root st files).deps := by
  intro files
  induction files with
  | nil => intro st; exact Finset.Subset.refl _
  | cons fn rest ih =>
    intro st
    simp only [processFiles]
    split
    · exact (processLines_deps_mono ctx root _ st).trans (ih _)
    · exact ih st

/-- A line importing a class that the Class Index owns puts the index's
target into the dependency set. -/
theorem processLine_adds_index_target (ctx : DCtx) (root : String) (st : DState)
    (l needed tgt : String) (hi : javaImportGroup l = some needed)
    (ht : ctx.third_party_map.lookup needed = some tgt) :
    tgt ∈ (processLine ctx root st l).deps := by
  simp only [processLine, hi, ht]
  exact Finset.mem_insert_self _ _

/-- Lifting the previous lemma through a file's line list. -/
theorem processLines_adds_index_target (ctx : DCtx) (root : String)
    (needed tgt : String) (ht : ctx.third_party_map.lookup needed = some tgt) :
    ∀ (ls : List String) (st : DState) (l : String), l ∈ ls →
      javaImportGroup l = some needed →
      tgt ∈ (processLines ctx root st ls).deps := by
  intro ls
  induction ls with
  | nil => intro st l hm; exact absurd hm (List.not_mem_nil l)
  | cons l0 ls ih =>
    intro st l hm hi
    rcases List.mem_cons.mp hm with h | h
    · subst h
      exact processLines_deps_mono ctx root ls _
        (processLine_adds_index_target ctx root st l needed tgt hi ht)
    · exact ih _ l h hi

/-- Lifting through the directory's file list. -/
theorem processFiles_adds_index_target (ctx : DCtx) (root : String)
    (needed tgt : String) (ht : ctx.third_party_map.lookup needed = some tgt) :
    ∀ (files : List String) (st : DState) (fname l : String), fname ∈ files →
      strEnds fname ".java" = true →
      l ∈ pyReadlines (fsRead ctx (pyPathJoin root fname)) →
      javaImportGroup l = some needed →
      tgt ∈ (processFiles ctx root st files).deps := by
  intro files
  induction files with
  | nil => intro st fname l hm; exact absurd hm (List.not_mem_nil fname)
  | cons f0 rest ih =>
    intro st fname l hm hj hl hi
    simp only [processFiles]
    rcases List.mem_cons.mp hm with h | h
    · subst h
      rw [if_pos hj]
      exact processFiles_deps_mono ctx root rest _
        (processLines_adds_index_target ctx root needed tgt ht _ st l hl hi)
    · split
      · exact ih _ fname l h hj hl hi
      · exact ih st fname l h hj hl hi

/-- C6: for every imported class name present in the Class Index
(`third_party_map`), the resolver adds the index's owning target to the
dependency set — for every filesystem, in particular ones where a same-named
`.java` file also exists under a recognized source root, since the index
branch is taken before local-file scanning. -/
theorem C6_index_lookup_precedes_local (ctx : DCtx) (root : String)
    (files : List String) (rn fname l needed tgt : String)
    (hf : fname ∈ files) (hj : strEnds fname ".java" = true)
    (hl : l ∈ pyReadlines (fsRead ctx (pyPathJoin root fname)))
    (hi : javaImportGroup l = some needed)
    (ht : ctx.third_party_map.lookup needed = some tgt) :
    tgt ∈ (get_deps_for_files ctx root files rn).1 :=
  processFiles_adds_index_target ctx root needed tgt ht files ⟨∅, false, rn⟩
    fname l hf hj hl hi

/-- Witness for C6: `b.C` is in the Class Index of `C6ctx` and also exists as
`src/b/C.java` under the recognized root; the index target `//libs:lib` is
returned. -/
theorem C6_index_lookup_precedes_local_witness :
    "//libs:lib" ∈ (get_deps_for_files C6ctx "src/a" ["A.java"] "//src/a:a").1 :=
  C6_index_lookup_precedes_local C6ctx "src/a" ["A.java"] "//src/a:a" "A.java"
    "import b.C;\n" "b.C" "//libs:lib" (by decide) (by decide) (by decide)
    (by decide) (by decide)

/-- Every dependency that the source-root scan adds is a locally resolved
target whose directory differs (as an absolute path) from the directory
under analysis. -/
theorem tryRoots_deps_inv (ctx : DCtx) (root javaFile : String) :
    ∀ (roots : List String) (st : DState) (t : String),
      t ∈ (tryRoots ctx root javaFile st roots).deps →
      t ∈ st.deps ∨ ∃ tb rnn, t = "//" ++ tb ++ ":" ++ rnn ∧
        pyAbspath ctx.cwd tb ≠ pyAbspath ctx.cwd root := by
  intro roots
  induction roots with
  | nil => intro st t ht; exact Or.inl ht
  | cons sr rest ih =>
    intro st t ht
    simp only [tryRoots] at ht
    split at ht
    · split at ht
      · rcases Finset.mem_insert.mp ht with h | h
        · rename_i hne
          exact Or.inr ⟨_, _, h, hne⟩
        · exact Or.inl h
      · exact Or.inl ht
    · exact ih st t ht

/-- Every dependency that one line adds comes from the Class Index or is a
locally resolved target of another directory. -/
theorem processLine_deps_inv (ctx : DCtx) (root : String) (st : DState)
    (l t : String) (ht : t ∈ (processLine ctx root st l).deps) :
    t ∈ st.deps ∨ (∃ c, ctx.third_party_map.lookup c = some t) ∨
      ∃ tb rnn, t = "//" ++ tb ++ ":" ++ rnn ∧
        pyAbspath ctx.cwd tb ≠ pyAbspath ctx.cwd root := by
  simp only [processLine] at ht
  split at ht
  · exact Or.inl ht
  · rename_i needed hjav
    split at ht <;> split at ht <;>
      first
        | exact (Finset.mem_insert.mp ht).elim
            (fun h => Or.inr (Or.inl ⟨needed, by rw [h]; assumption⟩)) Or.inl
        | exact (tryRoots_deps_inv ctx root (dotsToSlashes needed ++ ".java")
              ctx.src_roots ⟨st.deps, true, st.ruleName⟩ t ht).elim Or.inl
            (fun h => Or.inr (Or.inr h))
        | exact (tryRoots_deps_inv ctx root (dotsToSlashes needed ++ ".java")
              ctx.src_roots st t ht).elim Or.inl (fun h => Or.inr (Or.inr h))

/-- The invariant lifted through a file's lines. -/
theorem processLines_deps_inv (ctx : DCtx) (root : String) :
    ∀ (ls : List String) (st : DState) (t : String),
      t ∈ (processLines ctx root st ls).deps →
      t ∈ st.deps ∨ (∃ c, ctx.third_party_map.lookup c = some t) ∨
        ∃ tb rnn, t = "//" ++ tb ++ ":" ++ rnn ∧
          pyAbspath ctx.cwd tb ≠ pyAbspath ctx.cwd root := by
  intro ls
  induction ls with
  | nil => intro st t ht; exact Or.inl ht
  | cons l ls ih =>
    intro st t ht
    rcases ih _ t ht with h | h
    · exact processLine_deps_inv ctx root st l t h
    · exact Or.inr h

/-- The invariant lifted through the directory's files. -/
theorem processFiles_deps_inv (ctx : DCtx) (root : String) :
    ∀ (files : List String) (st : DState) (t : String),
      t ∈ (processFiles ctx root st files).deps →
      t ∈ st.deps ∨ (∃ c, ctx.third_party_map.lookup c = some t) ∨
        ∃ tb rnn, t = "//" ++ tb ++ ":" ++ rnn ∧
          pyAbspath ctx.cwd tb ≠ pyAbspath ctx.cwd root := by
  intro files
  induction files with
  | nil => intro st t ht; exact Or.inl ht
  | cons fn rest ih =>
    intro st t ht
    simp only [processFiles] at ht
    split at ht
    · rcases ih _ t ht with h | h
      · rcases processLines_deps_inv ctx root _ st t h with h2 | h2
        · exact Or.inl h2
        · exact Or.inr h2
      · exact Or.inr h
    · exact ih st t ht

/-- C7: no operation adds a target to its own dependency list.  Every
dependency `get_deps_for_files` returns either comes from the Class Index or
is a locally resolved target whose absolute directory differs from the
directory under analysis (the resolver skips a local match resolving to the
analyzed directory), and the diagnostic parser never reports the rule being
built among the missing dependencies. -/
theorem C7_no_self_dependency :
    (∀ (ctx : DCtx) (root : String) (files : List String) (rn t : String),
        t ∈ (get_deps_for_files ctx root files rn).1 →
        (∃ c, ctx.third_party_map.lookup c = some t) ∨
          ∃ tb rnn, t = "//" ++ tb ++ ":" ++ rnn ∧
            pyAbspath ctx.cwd tb ≠ pyAbspath ctx.cwd root) ∧
    (∀ rule output : String, rule ∉ find_missing_deps_from_output rule output) := by
  constructor
  · intro ctx root files rn t ht
    rcases processFiles_deps_inv ctx root files ⟨∅, false, rn⟩ t ht with h | h
    · exact absurd h (Finset.not_mem_empty t)
    · exact h
  · intro rule output hmem
    exact (Finset.mem_filter.mp hmem).2 rfl

/-- Witness for C7: the locally resolved dependency `//src/b:b` of `C2ctx`
satisfies the invariant, and the parser never suggests `//a:a` to itself. -/
theorem C7_no_self_dependency_witness :
    ((∃ c, C2ctx.third_party_map.lookup c = some "//src/b:b") ∨
      ∃ tb rnn, "//src/b:b" = "//" ++ tb ++ ":" ++ rnn ∧
        pyAbspath C2ctx.cwd tb ≠ pyAbspath C2ctx.cwd "src/a") ∧
    "//a:a" ∉ find_missing_deps_from_output "//a:a" "//a:a\n" :=
  ⟨C7_no_self_dependency.1 C2ctx "src/a" ["A.java"] "//src/a:a" "//src/b:b"
      (by decide),
   C7_no_self_dependency.2 "//a:a" "//a:a\n"⟩

/-! ## Convergence Loop: termination -/

/-- One rule's repair never increases any rule's measure: dependencies are
only added (union) and the kind token is only ever rewritten towards
`android_library`. -/
theorem processRule_measure_le (oracle : ConvSt → String → Option (Finset String))
    (U : Finset String) (st : ConvSt) (r x : String) :
    ruleMeasure U (processRule oracle st r).1 x ≤ ruleMeasure U st x := by
  simp only [processRule]
  split
  · exact le_refl _
  · rename_i m ho
    unfold ruleMeasure
    dsimp only
    by_cases hx : x = r
    · subst hx
      apply Nat.add_le_add
      · apply Finset.card_le_card
        rw [Function.update_same]
        exact Finset.sdiff_subset_sdiff (Finset.Subset.refl U) Finset.subset_union_left
      · cases hk : (decide (x ∈ st.alibs) && !st.kindA x) <;> simp [hk]
    · rw [Function.update_noteq hx]
      simp [hx]

/-- A repair that reports a modification strictly decreases the repaired
rule's measure, provided the suggestions lie in the universe `U`. -/
theorem processRule_measure_lt (oracle : ConvSt → String → Option (Finset String))
    (U : Finset String) (st : ConvSt) (r : String) (m : Finset String)
    (ho : oracle st r = some m) (hmU : m ⊆ U)
    (hch : (processRule oracle st r).2 = true) :
    ruleMeasure U (processRule oracle st r).1 r < ruleMeasure U st r := by
  simp only [processRule, ho] at hch ⊢
  unfold ruleMeasure
  dsimp only
  rw [Function.update_same]
  by_cases hd : st.deps r ∪ m = st.deps r
  · have hkc : (decide (r ∈ st.alibs) && !st.kindA r) = true := by
      rcases Bool.or_eq_true_iff.mp hch with h | h
      · exact h
      · exact absurd (of_decide_eq_true h) (by simp [hd])
    have hko : st.kindA r = false := by
      have := (Bool.and_eq_true_iff.mp hkc).2
      simpa using this
    rw [hd]
    have h1 : (if (decide (r = r) && (decide (r ∈ st.alibs) && !st.kindA r)) = true
        then true else st.kindA r) = true := by
      simp [hkc]
    rw [h1, hko]
    simp
  · have hns : ¬ m ⊆ st.deps r := fun hsub2 => hd (Finset.union_eq_left.mpr hsub2)
    obtain ⟨x, hxm, hxd⟩ := Finset.not_subset.mp hns
    have hsub : U \ (st.deps r ∪ m) ⊂ U \ st.deps r := by
      refine (Finset.ssubset_iff_of_subset
        (Finset.sdiff_subset_sdiff (Finset.Subset.refl U)
          Finset.subset_union_left)).mpr ?_
      exact ⟨x, Finset.mem_sdiff.mpr ⟨hmU hxm, hxd⟩,
        fun hcon => (Finset.mem_sdiff.mp hcon).2 (Finset.mem_union_right _ hxm)⟩
    have hcard := Finset.card_lt_card hsub
    have hkind : (if (if (decide (r = r) && (decide (r ∈ st.alibs) && !st.kindA r)) = true
          then true else st.kindA r) = true then 0 else 1) ≤
        (if st.kindA r = true then 0 else 1) := by
      cases hk : (decide (r ∈ st.alibs) && !st.kindA r) <;> simp [hk]
    exact Nat.add_lt_add_of_lt_of_le hcard hkind

/-- Pointwise bounds lift to the summed measure over the rule list. -/
theorem mapSum_le (f g : String → Nat) (h : ∀ x, f x ≤ g x) :
    ∀ l : List String, (l.map f).sum ≤ (l.map g).sum := by
  intro l
  induction l with
  | nil => exact le_refl _
  | cons a l ih => exact Nat.add_le_add (h a) ih

/-- A strict pointwise decrease at a listed rule makes the sum strictly
decrease. -/
theorem mapSum_lt (f g : String → Nat) (h : ∀ x, f x ≤ g x) (r : String)
    (hr : f r < g r) :
    ∀ l : List String, r ∈ l → (l.map f).sum < (l.map g).sum := by
  intro l
  induction l with
  | nil => intro hm; exact absurd hm (List.not_mem_nil r)
  | cons a l ih =>
    intro hm
    rcases List.mem_cons.mp hm with hEq | hMem
    · subst hEq
      exact Nat.add_lt_add_of_lt_of_le hr (mapSum_le f g h l)
    · exact Nat.add_lt_add_of_le_of_lt (h a) (ih hMem)

/-- The `files_changed` counter of the rule loop never decreases. -/
theorem passGo_count_ge (oracle : ConvSt → String → Option (Finset String)) :
    ∀ (l : List String) (st : ConvSt) (n : Nat), n ≤ (passGo oracle st n l).2 := by
  intro l
  induction l with
  | nil => intro st n; exact le_refl n
  | cons r rest ih =>
    intro st n
    simp only [passGo]
    refine le_trans ?_ (ih _ _)
    split <;> omega

/-- A rule-loop segment never increases the measure, and strictly decreases
it whenever it reports any changed file. -/
theorem passGo_measure (oracle : ConvSt → String → Option (Finset String))
    (U : Finset String) (rules : List String)
    (hU : ∀ (st : ConvSt) (r : String) (m : Finset String),
      oracle st r = some m → m ⊆ U) :
    ∀ (l : List String) (st : ConvSt) (n : Nat), (∀ r ∈ l, r ∈ rules) →
      convMeasure U rules (passGo oracle st n l).1 ≤ convMeasure U rules st ∧
      (n < (passGo oracle st n l).2 →
        convMeasure U rules (passGo oracle st n l).1 < convMeasure U rules st) := by
  intro l
  induction l with
  | nil =>
    intro st n _
    exact ⟨le_refl _, fun h => absurd h (lt_irrefl n)⟩
  | cons r rest ih =>
    intro st n hl
    have hle : convMeasure U rules (processRule oracle st r).1 ≤ convMeasure U rules st :=
      mapSum_le _ _ (fun x => processRule_measure_le oracle U st r x) rules
    simp only [passGo]
    cases hc : (processRule oracle st r).2
    · simp only [Bool.false_eq_true, if_false]
      obtain ⟨ih1, ih2⟩ := ih (processRule oracle st r).1 n
        (fun x hx => hl x (List.mem_cons_of_mem r hx))
      exact ⟨ih1.trans hle, fun h => lt_of_lt_of_le (ih2 h) hle⟩
    · simp only [if_true]
      cases ho : oracle st r with
      | none =>
        exfalso
        simp [processRule, ho] at hc
      | some m =>
        have hlt : convMeasure U rules (processRule oracle st r).1 <
            convMeasure U rules st :=
          mapSum_lt _ _ (fun x => processRule_measure_le oracle U st r x) r
            (processRule_measure_lt oracle U st r m ho (hU st r m ho) hc)
            rules (hl r (List.mem_cons_self r rest))
        obtain ⟨ih1, _⟩ := ih (processRule oracle st r).1 (n + 1)
          (fun x hx => hl x (List.mem_cons_of_mem r hx))
        exact ⟨le_of_lt (lt_of_le_of_lt ih1 hlt),
          fun _ => lt_of_le_of_lt ih1 hlt⟩

/-- Unrolling the pass iteration from the front. -/
theorem passes_shift (oracle : ConvSt → String → Option (Finset String))
    (rules : List String) (st : ConvSt) :
    ∀ n, passes oracle rules st (n + 1) =
      passes oracle rules (add_missing_deps_pass oracle rules st).1 n := by
  intro n
  induction n with
  | zero => rfl
  | succ n ih =>
    have h2 : passes oracle rules st (n + 1 + 1) =
        (add_missing_deps_pass oracle rules (passes oracle rules st (n + 1))).1 := rfl
    rw [h2, ih]
    rfl

/-- Bounded-passes form of the termination argument. -/
theorem conv_terminates_aux (oracle : ConvSt → String → Option (Finset String))
    (U : Finset String) (rules : List String)
    (hU : ∀ (st : ConvSt) (r : String) (m : Finset String),
      oracle st r = some m → m ⊆ U) :
    ∀ (k : Nat) (st : ConvSt), convMeasure U rules st ≤ k →
      ∃ n, n ≤ convMeasure U rules st ∧
        (add_missing_deps_pass oracle rules (passes oracle rules st n)).2 = 0 := by
  intro k
  induction k with
  | zero =>
    intro st hk
    refine ⟨0, Nat.zero_le _, ?_⟩
    by_contra hne
    have hpos : 0 < (add_missing_deps_pass oracle rules (passes oracle rules st 0)).2 :=
      Nat.pos_of_ne_zero hne
    have hdec : convMeasure U rules
        (add_missing_deps_pass oracle rules (passes oracle rules st 0)).1 <
        convMeasure U rules st :=
      (passGo_measure oracle U rules hU rules (passes oracle rules st 0) 0
        (fun r hr => hr)).2 hpos
    omega
  | succ k ih =>
    intro st hk
    cases hz : (add_missing_deps_pass oracle rules st).2 with
    | zero => exact ⟨0, Nat.zero_le _, hz⟩
    | succ c =>
      have hpos : 0 < (add_missing_deps_pass oracle rules st).2 := by omega
      have hstrict : convMeasure U rules (add_missing_deps_pass oracle rules st).1 <
          convMeasure U rules st :=
        (passGo_measure oracle U rules hU rules st 0 (fun r hr => hr)).2 hpos
      have hk1 : convMeasure U rules (add_missing_deps_pass oracle rules st).1 ≤ k := by
        omega
      obtain ⟨n, hn, hz'⟩ := ih (add_missing_deps_pass oracle rules st).1 hk1
      refine ⟨n + 1, by omega, ?_⟩
      rw [passes_shift]
      exact hz'

/-- C9: if the build tool's suggestions come from a finite universe `U` and
every failing invocation suggests at least one dependency not already in the
rule's list, the `add_missing_deps` loop reaches a pass that rewrites zero
files — within at most the initial measure's worth of passes — because every
repair only unions suggestions into the dependency list and the loop stops at
the first pass with `files_changed = 0`. -/
theorem C9_convergence_terminates
    (oracle : ConvSt → String → Option (Finset String)) (rules : List String)
    (U : Finset String) (s0 : ConvSt)
    (hor : ∀ (st : ConvSt) (r : String) (m : Finset String),
      oracle st r = some m → m ⊆ U ∧ ¬ m ⊆ st.deps r) :
    ∃ n, n ≤ convMeasure U rules s0 ∧
      (add_missing_deps_pass oracle rules (passes oracle rules s0 n)).2 = 0 :=
  conv_terminates_aux oracle U rules
    (fun st r m h => (hor st r m h).1) (convMeasure U rules s0) s0 (le_refl _)

/-- Witness for C9: one rule, an always-succeeding build, empty universe. -/
theorem C9_convergence_terminates_witness :
    ∃ n, n ≤ convMeasure ∅ ["//a:a"] C9st ∧
      (add_missing_deps_pass C9oracle ["//a:a"] (passes C9oracle ["//a:a"] C9st n)).2 = 0 :=
  C9_convergence_terminates C9oracle ["//a:a"] ∅ C9st (fun _ _ _ h => nomatch h)
